import Mathlib

/-!
Shallow embedding of the karaoke subtitle compiler (`app/subtitles.py`)
and verification of its specified properties.

Modelling conventions:
* Python strings are modelled as Lean `String` / `List Char`; `len` is the
  number of code points, matching Python.
* `str.isalpha` is modelled by `pyIsAlpha`, Python's Unicode classification
  restricted to the Latin-1 range (code points above U+00FF are classified
  as non-alphabetic).  None of the theorems below depend on the exact
  classifier: they hold for any classification of characters.
* Python `round` (banker's rounding, ties to even) on exact decimal values
  is modelled by exact rational rounding; in the ranges exercised here the
  float error of the source is far below the rounding threshold.
* Fallible code (`raise ValueError`) is modelled with `Option` / `Except`.
-/

namespace Subtitles

/-- Model of Python `str.isalpha`, restricted to the Latin-1 range:
ASCII letters, `ª µ º`, and the Latin-1 letter block `À…ÿ` minus `× ÷`.
Code points above U+00FF are modelled as non-alphabetic. -/
def pyIsAlpha (c : Char) : Bool :=
  let n := c.toNat
  decide ((97 ≤ n ∧ n ≤ 122) ∨ (65 ≤ n ∧ n ≤ 90) ∨
    n = 0xAA ∨ n = 0xB5 ∨ n = 0xBA ∨
    (0xC0 ≤ n ∧ n ≤ 0xFF ∧ n ≠ 0xD7 ∧ n ≠ 0xF7))

/-- `VOWELS = set("aeiouáéíóúüAEIOUÁÉÍÓÚÜ")` from the source. -/
def VOWELS : List Char := "aeiouáéíóúüAEIOUÁÉÍÓÚÜ".data

/-- `is_consonant(idx)` from `split_syllables`: in range, alphabetic,
and not in `VOWELS`. -/
def is_consonant (w : List Char) (idx : ℕ) : Bool :=
  match w.get? idx with
  | some c => pyIsAlpha c && !(VOWELS.contains c)
  | none => false

/-- `is_vowel(idx)` from `split_syllables`: in range and in `VOWELS`. -/
def is_vowel (w : List Char) (idx : ℕ) : Bool :=
  match w.get? idx with
  | some c => VOWELS.contains c
  | none => false

/-- `word[j:j+2].lower() in ("ch", "ll", "rr")` (with `j + 1 < n`). -/
def digraphAt (w : List Char) (j : ℕ) : Bool :=
  match w.get? j, w.get? (j + 1) with
  | some a, some b =>
      let p := [a.toLower, b.toLower]
      p = ['c', 'h'] || p = ['l', 'l'] || p = ['r', 'r']
  | _, _ => false

/-- Python slice `w[i:j]`. -/
def slice (w : List Char) (i j : ℕ) : List Char :=
  (w.drop i).take (j - i)

/-- The maximal-vowel-run scan `while is_vowel(j): j += 1`, with explicit
fuel (the run never passes the end of the word, so `w.length` fuel is
always enough). -/
def vowelRun (w : List Char) : ℕ → ℕ → ℕ
  | 0, j => j
  | fuel + 1, j => if is_vowel w j then vowelRun w fuel (j + 1) else j

/-- One iteration of the scanning loop of `split_syllables` at cursor `i`:
returns the parts appended during the iteration and the new cursor.
Mirrors lines 107–143 of the source. -/
def splitStep (w : List Char) (i : ℕ) : List (List Char) × ℕ :=
  match w.get? i with
  | none => ([], i)
  | some ci =>
    if !(pyIsAlpha ci) then
      ([[ci]], i + 1)
    else
      -- leading consonant run: digraph counts as one unit
      let j1 := if is_consonant w i then (if digraphAt w i then i + 2 else i + 1) else i
      if is_vowel w j1 then
        let j2 := vowelRun w (w.length - j1) j1
        if is_consonant w j2 && is_consonant w (j2 + 1) then
          ([slice w i j2], j2)
        else if is_consonant w j2 && is_vowel w (j2 + 1) then
          ([slice w i j2], j2)
        else
          let j3 := if is_consonant w j2 then j2 + 1 else j2
          ([slice w i j3], j3)
      else
        ([slice w i j1], j1)

/-- The scanning loop `while i < n` of `split_syllables`, with fuel. -/
def sylLoop (w : List Char) : ℕ → ℕ → List (List Char)
  | 0, _ => []
  | fuel + 1, i =>
    if i < w.length then
      (splitStep w i).1 ++ sylLoop w fuel (splitStep w i).2
    else []

/-- `split_syllables(word)` from the source: early returns for the empty
word and for words without alphabetic characters, then the scanning loop,
then `[p for p in parts if p]`. -/
def split_syllables (word : String) : List String :=
  if word = "" then [word]
  else if word.data.all (fun ch => !(pyIsAlpha ch)) then [word]
  else
    ((sylLoop word.data word.data.length 0).map (fun l => (⟨l⟩ : String))).filter
      (fun p => !p.data.isEmpty)

/-! ### Basic facts about the syllabifier scan -/

lemma is_vowel_lt {w : List Char} {j : ℕ} (h : is_vowel w j = true) : j < w.length := by
  by_contra hge
  push_neg at hge
  rw [is_vowel, List.get?_eq_none.mpr hge] at h
  simp at h

lemma is_consonant_lt {w : List Char} {j : ℕ} (h : is_consonant w j = true) :
    j < w.length := by
  by_contra hge
  push_neg at hge
  rw [is_consonant, List.get?_eq_none.mpr hge] at h
  simp at h

lemma digraphAt_lt {w : List Char} {j : ℕ} (h : digraphAt w j = true) :
    j + 1 < w.length := by
  by_contra hge
  push_neg at hge
  rw [digraphAt, List.get?_eq_none.mpr hge] at h
  rcases hg : w.get? j with _ | c <;> rw [hg] at h <;> simp at h

lemma vowelRun_ge (w : List Char) : ∀ fuel j, j ≤ vowelRun w fuel j := by
  intro fuel
  induction fuel with
  | zero => intro j; simp [vowelRun]
  | succ n ih =>
    intro j
    rw [vowelRun]
    split
    · exact le_trans (Nat.le_succ j) (ih (j + 1))
    · exact le_refl j

lemma vowelRun_le (w : List Char) : ∀ fuel j, j ≤ w.length →
    vowelRun w fuel j ≤ w.length := by
  intro fuel
  induction fuel with
  | zero => intro j h; simpa [vowelRun] using h
  | succ n ih =>
    intro j h
    rw [vowelRun]
    split
    · next hv => exact ih (j + 1) (is_vowel_lt hv)
    · exact h

lemma vowelRun_gt (w : List Char) {fuel j : ℕ} (hv : is_vowel w j = true)
    (hf : 0 < fuel) : j < vowelRun w fuel j := by
  cases fuel with
  | zero => omega
  | succ n =>
    rw [vowelRun, if_pos hv]
    exact lt_of_lt_of_le (Nat.lt_succ_self j) (vowelRun_ge w n (j + 1))

lemma slice_ne_nil {w : List Char} {i j : ℕ} (hi : i < w.length) (hij : i < j) :
    slice w i j ≠ [] := by
  rw [← List.length_pos, slice, List.length_take, List.length_drop]
  omega

lemma slice_single {w : List Char} {i : ℕ} {c : Char} (h : w.get? i = some c) :
    slice w i (i + 1) = [c] := by
  obtain ⟨hi, hc⟩ := List.get?_eq_some.mp h
  rw [slice, Nat.add_sub_cancel_left, List.drop_eq_getElem_cons hi]
  simp only [List.take_succ_cons, List.take_zero]
  rw [← hc]
  rfl

lemma slice_append_drop (w : List Char) {i j : ℕ} (hij : i ≤ j) :
    slice w i j ++ w.drop j = w.drop i := by
  rw [slice]
  conv_rhs => rw [← List.take_append_drop (j - i) (w.drop i)]
  congr 1
  rw [List.drop_drop]
  congr 1
  omega

/-- One scanning iteration of `split_syllables`, at a cursor inside the
word, strictly advances the cursor, stays inside the word, emits exactly
the characters it scanned over, and emits no empty part. -/
lemma splitStep_spec (w : List Char) (i : ℕ) (hi : i < w.length) :
    i < (splitStep w i).2 ∧ (splitStep w i).2 ≤ w.length ∧
    (splitStep w i).1.flatten = slice w i (splitStep w i).2 ∧
    ∀ p ∈ (splitStep w i).1, p ≠ [] := by
  obtain ⟨c, hg⟩ : ∃ c, w.get? i = some c := by
    cases hgg : w.get? i with
    | none => exact absurd (List.get?_eq_none.mp hgg) (by omega)
    | some c => exact ⟨c, rfl⟩
  simp only [splitStep, hg]
  by_cases halpha : pyIsAlpha c
  · rw [if_neg (by simp [halpha])]
    set j1 := if is_consonant w i = true then (if digraphAt w i = true then i + 2 else i + 1) else i
      with hj1
    have hj1i : i ≤ j1 := by
      rw [hj1]
      split
      · split <;> omega
      · omega
    have hj1le : j1 ≤ w.length := by
      rw [hj1]
      split
      · split
        · next _ hd => have := digraphAt_lt hd; omega
        · omega
      · omega
    by_cases hv : is_vowel w j1 = true
    · rw [if_pos hv]
      set j2 := vowelRun w (w.length - j1) j1 with hj2
      have hj1lt : j1 < w.length := is_vowel_lt hv
      have hj2gt : j1 < j2 := vowelRun_gt w hv (by omega)
      have hj2le : j2 ≤ w.length := vowelRun_le w _ j1 (by omega)
      have hij2 : i < j2 := by omega
      by_cases hcc : is_consonant w j2 && is_consonant w (j2 + 1)
      · rw [if_pos hcc]
        exact ⟨hij2, hj2le, by simp, by
          intro p hp; rw [List.mem_singleton] at hp; subst hp
          exact slice_ne_nil hi hij2⟩
      · rw [if_neg hcc]
        by_cases hcv : is_consonant w j2 && is_vowel w (j2 + 1)
        · rw [if_pos hcv]
          exact ⟨hij2, hj2le, by simp, by
            intro p hp; rw [List.mem_singleton] at hp; subst hp
            exact slice_ne_nil hi hij2⟩
        · rw [if_neg hcv]
          set j3 := if is_consonant w j2 then j2 + 1 else j2 with hj3
          have hij3 : i < j3 := by rw [hj3]; split <;> omega
          have hj3le : j3 ≤ w.length := by
            rw [hj3]
            split
            · next hc3 => have := is_consonant_lt hc3; omega
            · omega
          exact ⟨hij3, hj3le, by simp, by
            intro p hp; rw [List.mem_singleton] at hp; subst hp
            exact slice_ne_nil hi hij3⟩
    · rw [if_neg hv]
      have hij1 : i < j1 := by
        rcases Nat.lt_or_ge i j1 with h | h
        · exact h
        · exfalso
          have hji : j1 = i := le_antisymm (by omega) hj1i
          have hcons : is_consonant w i = false := by
            by_contra hc
            rw [Bool.not_eq_false] at hc
            rw [hj1, if_pos hc] at hji
            split at hji <;> omega
          have : is_vowel w i = true := by
            rw [is_vowel, hg]
            rw [is_consonant, hg] at hcons
            simp only [Bool.and_eq_false_iff] at hcons
            rcases hcons with h | h
            · exact absurd h (by simp [halpha])
            · simpa using h
          rw [hji] at hv
          exact hv this
      exact ⟨hij1, hj1le, by simp, by
        intro p hp; rw [List.mem_singleton] at hp; subst hp
        exact slice_ne_nil hi hij1⟩
  · rw [if_pos (by simp [halpha])]
    refine ⟨Nat.lt_succ_self i, by omega, ?_, by simp⟩
    simp only [List.flatten, List.append_nil]
    exact (slice_single hg).symm

/-- The scanning loop, run with enough fuel, emits exactly the suffix of
the word from the cursor on, and emits no empty part. -/
lemma sylLoop_spec (w : List Char) : ∀ fuel i, w.length - i ≤ fuel →
    (sylLoop w fuel i).flatten = w.drop i ∧ ∀ p ∈ sylLoop w fuel i, p ≠ [] := by
  intro fuel
  induction fuel with
  | zero =>
    intro i h
    refine ⟨?_, by simp [sylLoop]⟩
    rw [sylLoop, List.drop_eq_nil_of_le (by omega)]
    rfl
  | succ n ih =>
    intro i h
    rw [sylLoop]
    by_cases hi : i < w.length
    · rw [if_pos hi]
      obtain ⟨h1, h2, h3, h4⟩ := splitStep_spec w i hi
      obtain ⟨ih1, ih2⟩ := ih (splitStep w i).2 (by omega)
      refine ⟨?_, ?_⟩
      · rw [List.flatten_append, h3, ih1, slice_append_drop w (le_of_lt h1)]
      · intro p hp
        rcases List.mem_append.mp hp with hmem | hmem
        · exact h4 p hmem
        · exact ih2 p hmem
    · rw [if_neg hi]
      exact ⟨by rw [List.drop_eq_nil_of_le (by omega)]; rfl, by simp⟩

/-- The result of the loop does not depend on the fuel, as long as the fuel
covers the remaining length: the scan finishes within `length − i` steps. -/
lemma sylLoop_fuel_irrelevant (w : List Char) : ∀ fuel₁ fuel₂ i,
    w.length - i ≤ fuel₁ → w.length - i ≤ fuel₂ →
    sylLoop w fuel₁ i = sylLoop w fuel₂ i := by
  intro fuel₁
  induction fuel₁ with
  | zero =>
    intro fuel₂ i h1 _
    cases fuel₂ with
    | zero => rfl
    | succ m => rw [sylLoop, sylLoop, if_neg (by omega)]
  | succ n ih =>
    intro fuel₂ i h1 h2
    by_cases hi : i < w.length
    · cases fuel₂ with
      | zero => omega
      | succ m =>
        rw [sylLoop, sylLoop, if_pos hi, if_pos hi]
        have := (splitStep_spec w i hi).1
        rw [ih m (splitStep w i).2 (by omega) (by omega)]
    · cases fuel₂ with
      | zero => rw [sylLoop, sylLoop, if_neg hi]
      | succ m => rw [sylLoop, sylLoop, if_neg hi, if_neg hi]

/-- Dropping the empty parts and converting to strings preserves the
concatenation of the parts. -/
lemma flatten_filter_map_parts : ∀ parts : List (List Char),
    ((((parts.map (fun l => (⟨l⟩ : String))).filter
        (fun p => !p.data.isEmpty)).map String.data)).flatten = parts.flatten := by
  intro parts
  induction parts with
  | nil => rfl
  | cons l rest ih =>
    by_cases hl : l.isEmpty
    · rw [List.isEmpty_iff] at hl
      subst hl
      simpa using ih
    · simp only [List.map_cons, List.filter_cons]
      rw [if_pos (by simpa using hl)]
      simpa using ih

/-! ### Claim C2: syllable partition property -/

/-- C2 counterexample: on the empty input word, `split_syllables` returns
`[""]`, so the returned list contains an empty element, contradicting the
claim that every element is a non-empty substring. -/
theorem split_syllables_empty_element_counterexample :
    "" ∈ split_syllables "" := by decide

/-- C2 (amended): for every input word, concatenating the elements of
`split_syllables`, in order, reproduces the input exactly character for
character; and whenever the input is non-empty, every element of the
returned list is non-empty. -/
theorem split_syllables_partition (w : String) :
    ((split_syllables w).map String.data).flatten = w.data ∧
    (w ≠ "" → ∀ p ∈ split_syllables w, p ≠ "") := by
  unfold split_syllables
  by_cases h0 : w = ""
  · rw [if_pos h0]
    subst h0
    exact ⟨by simp, fun hne => absurd rfl hne⟩
  · rw [if_neg h0]
    by_cases h1 : w.data.all (fun ch => !(pyIsAlpha ch))
    · rw [if_pos h1]
      refine ⟨by simp, fun _ p hp => ?_⟩
      rw [List.mem_singleton] at hp
      subst hp
      exact h0
    · rw [if_neg h1]
      constructor
      · rw [flatten_filter_map_parts]
        simpa using (sylLoop_spec w.data w.data.length 0 (by omega)).1
      · intro _ p hp
        have hmem := List.mem_filter.mp hp
        intro hcon
        subst hcon
        exact absurd hmem.2 (by decide)

/-- C2 witness: the partition property and non-emptiness at the concrete
word `"hola"`. -/
theorem split_syllables_partition_witness :
    ((split_syllables "hola").map String.data).flatten = "hola".data ∧
    ∀ p ∈ split_syllables "hola", p ≠ "" :=
  ⟨(split_syllables_partition "hola").1,
   (split_syllables_partition "hola").2 (by decide)⟩

/-! ### Claim C10: termination of the syllabifier scan -/

/-- C10: on each iteration of the scanning loop of `split_syllables` the
cursor strictly increases, and consequently the loop finishes within
`length − i` steps: any fuel covering the remaining length yields the
same result, so the function is total. -/
theorem split_syllables_terminates (w : List Char) (i : ℕ) (h : i < w.length) :
    i < (splitStep w i).2 ∧
    ∀ fuel, w.length - i ≤ fuel → sylLoop w fuel i = sylLoop w (w.length - i) i :=
  ⟨(splitStep_spec w i h).1,
   fun fuel hf => sylLoop_fuel_irrelevant w fuel (w.length - i) i hf le_rfl⟩

/-- C10 witness: the cursor advances at the concrete word `"hola"`. -/
theorem split_syllables_terminates_witness :
    0 < (splitStep "hola".data 0).2 :=
  (split_syllables_terminates "hola".data 0 (by decide)).1

/-! ### The karaoke timing allocator (`ass_line`) -/

/-- A timed word as parsed from the transcript
(`{"text": ..., "start_ms": ..., "end_ms": ...}`). -/
structure Word where
  text : String
  start_ms : ℤ
  end_ms : ℤ
deriving DecidableEq, Repr

/-- Python `round` (banker's rounding, ties to the even integer) of the
exact rational `num / den`, for `den > 0`.  The source computes the ratio
in floating point; in the ranges exercised by these theorems the float
error is far below the distance to the rounding boundary. -/
def pyRoundDiv (num den : ℤ) : ℤ :=
  let q := Int.fdiv num den
  let r := num - q * den
  if 2 * r < den then q
  else if den < 2 * r then q + 1
  else if q % 2 = 0 then q else q + 1

/-- `dur_cs = max(0, round((w["end_ms"] - w["start_ms"]) / 10))` from
`ass_line`. -/
def dur_cs (w : Word) : ℤ := max 0 (pyRoundDiv (w.end_ms - w.start_ms) 10)

/-- `has_letters(tok)` from `ass_line`: the token contains at least one
alphabetic character. -/
def has_letters (tok : String) : Bool := tok.data.any pyIsAlpha

/-- `remaining_timed = sum(1 for t in tokens if has_letters(t))`. -/
def timedCount (toks : List String) : ℕ := (toks.filter has_letters).length

/-- `timed_total_chars = sum(len(t) for t in timed_tokens)`. -/
def timed_total_chars (toks : List String) : ℕ :=
  ((toks.filter has_letters).map (fun t => t.data.length)).sum

/-- `tokens = split_syllables(w["text"]) or [w["text"]]`. -/
def word_tokens (w : Word) : List String :=
  let ts := split_syllables w.text
  if ts.isEmpty then [w.text] else ts

/-- The `\kf` centisecond allocation loop of `ass_line` for a word with at
least one timed token: one duration per token, in order.  `allocated` and
`remaining` mirror the source's loop counters; non-last timed tokens get
`max(1, round(durcs * len(tok) / ttc))` (0 if `durcs ≤ 0`), the last timed
token gets `max(1, durcs - allocated)` (0 if `durcs ≤ 0`), untimed tokens
get 0. -/
def allocCs (ttc durcs allocated remaining : ℤ) (tok : String) : ℤ :=
  if remaining - 1 = 0 then (if 0 < durcs then max 1 (durcs - allocated) else 0)
  else if 0 < durcs then max 1 (pyRoundDiv (durcs * tok.data.length) ttc) else 0

def allocLoop (ttc durcs : ℤ) : ℤ → ℤ → List String → List ℤ
  | _, _, [] => []
  | allocated, remaining, tok :: rest =>
    if has_letters tok then
      allocCs ttc durcs allocated remaining tok ::
        allocLoop ttc durcs (allocated + allocCs ttc durcs allocated remaining tok)
          (remaining - 1) rest
    else
      0 :: allocLoop ttc durcs allocated remaining rest

/-- The `\kf` durations of a word that has no timed token: the whole
`dur_cs` goes to the first token when `dur_cs > 0`, every other token
gets 0. -/
def untimedDurs (d : ℤ) : Bool → List String → List ℤ
  | _, [] => []
  | first, _ :: rest =>
    if first ∧ 0 < d then d :: untimedDurs d false rest
    else 0 :: untimedDurs d first rest

/-- The `\kf` centisecond duration written for each token of a word by
`ass_line`, in token order. -/
def word_token_durs (w : Word) : List ℤ :=
  if timed_total_chars (word_tokens w) = 0 then
    untimedDurs (dur_cs w) true (word_tokens w)
  else
    allocLoop (timed_total_chars (word_tokens w)) (dur_cs w) 0
      (timedCount (word_tokens w)) (word_tokens w)

/-- The sum of the centisecond durations that `ass_line` writes into the
fill tags of the word's timed tokens. -/
def timed_durs_sum (w : Word) : ℤ :=
  ((((word_tokens w).zip (word_token_durs w)).filter
      (fun p => has_letters p.1)).map Prod.snd).sum

/-- The total allocated by the proportional rule to the timed tokens other
than the last timed one. -/
def nonLastSum (ttc durcs : ℤ) : List String → ℤ
  | [] => 0
  | tok :: rest =>
    if has_letters tok then
      if timedCount rest = 0 then 0
      else max 1 (pyRoundDiv (durcs * tok.data.length) ttc) + nonLastSum ttc durcs rest
    else nonLastSum ttc durcs rest

/-! ### Claim C1: per-word timing conservation -/

lemma timedCount_cons_timed {t : String} {rest : List String}
    (ht : has_letters t = true) : timedCount (t :: rest) = timedCount rest + 1 := by
  simp [timedCount, List.filter_cons, ht]

lemma timedCount_cons_untimed {t : String} {rest : List String}
    (ht : has_letters t = false) : timedCount (t :: rest) = timedCount rest := by
  simp [timedCount, List.filter_cons, ht]

lemma timedCount_pos_ttc_pos : ∀ {toks : List String},
    0 < timedCount toks → 0 < timed_total_chars toks := by
  intro toks
  induction toks with
  | nil => intro h; simp [timedCount] at h
  | cons t rest ih =>
    intro h
    by_cases ht : has_letters t
    · have hlen : 0 < t.data.length := by
        rcases List.any_eq_true.mp ht with ⟨c, hc, _⟩
        exact List.length_pos.mpr (List.ne_nil_of_mem hc)
      simp only [timed_total_chars, List.filter_cons, ht, if_pos, List.map_cons,
        List.sum_cons]
      have : 0 ≤ ((rest.filter has_letters).map (fun t => t.data.length)).sum :=
        Nat.zero_le _
      omega
    · rw [timedCount_cons_untimed (by simpa using ht)] at h
      have := ih h
      simp only [timed_total_chars, List.filter_cons] at this ⊢
      rw [if_neg (by simpa using ht)]
      exact this

lemma nonLastSum_of_no_timed {ttc durcs : ℤ} : ∀ {toks : List String},
    timedCount toks = 0 → nonLastSum ttc durcs toks = 0 := by
  intro toks
  induction toks with
  | nil => intro _; rfl
  | cons t rest ih =>
    intro h
    by_cases ht : has_letters t
    · rw [timedCount_cons_timed ht] at h; omega
    · rw [timedCount_cons_untimed (by simpa using ht)] at h
      simp only [nonLastSum, if_neg (by simpa using ht : ¬has_letters t = true)]
      exact ih h

lemma allocLoop_of_no_timed (ttc durcs : ℤ) : ∀ (toks : List String) (a r : ℤ),
    timedCount toks = 0 → (allocLoop ttc durcs a r toks).sum = 0 := by
  intro toks
  induction toks with
  | nil => intro a r _; rfl
  | cons t rest ih =>
    intro a r h
    by_cases ht : has_letters t
    · rw [timedCount_cons_timed ht] at h; omega
    · rw [timedCount_cons_untimed (by simpa using ht)] at h
      simp only [allocLoop, if_neg (by simpa using ht : ¬has_letters t = true),
        List.sum_cons]
      rw [ih a r h]
      ring

/-- Invariant of the allocation loop: starting from `allocated` already
handed out, the loop hands out exactly
`max (allocated + nonLastSum + 1) durcs − allocated` centiseconds in
total (for `durcs > 0` and at least one timed token remaining). -/
lemma allocLoop_sum (ttc durcs : ℤ) (hd : 0 < durcs) : ∀ (toks : List String)
    (allocated : ℤ), 0 < timedCount toks →
    (allocLoop ttc durcs allocated (timedCount toks) toks).sum =
      max (allocated + nonLastSum ttc durcs toks + 1) durcs - allocated := by
  intro toks
  induction toks with
  | nil => intro a h; simp [timedCount] at h
  | cons t rest ih =>
    intro a h
    by_cases ht : has_letters t
    · rw [timedCount_cons_timed ht]
      simp only [allocLoop, if_pos ht, List.sum_cons]
      have hrem : ((timedCount rest + 1 : ℕ) : ℤ) - 1 = (timedCount rest : ℤ) := by
        push_cast; ring
      by_cases hrest : timedCount rest = 0
      · have hcs : allocCs ttc durcs a ((timedCount rest + 1 : ℕ) : ℤ) t =
            max 1 (durcs - a) := by
          rw [allocCs, if_pos (by rw [hrem, hrest]; rfl), if_pos hd]
        rw [hcs, allocLoop_of_no_timed ttc durcs rest _ _ hrest]
        rw [nonLastSum, if_pos ht, if_pos hrest]
        omega
      · have hcs : allocCs ttc durcs a ((timedCount rest + 1 : ℕ) : ℤ) t =
            max 1 (pyRoundDiv (durcs * t.data.length) ttc) := by
          rw [allocCs, if_neg (by rw [hrem]; exact_mod_cast hrest), if_pos hd]
        rw [hcs]
        have hrest' : 0 < timedCount rest := Nat.pos_of_ne_zero hrest
        have hrec := ih (a + max 1 (pyRoundDiv (durcs * t.data.length) ttc)) hrest'
        rw [hrem]
        push_cast at hrec ⊢
        rw [hrec]
        rw [nonLastSum, if_pos ht, if_neg hrest]
        omega
    · have ht' : has_letters t = false := by simpa using ht
      rw [timedCount_cons_untimed ht']
      simp only [allocLoop, if_neg (by simpa using ht : ¬has_letters t = true),
        List.sum_cons]
      have hpos : 0 < timedCount rest := by
        rw [timedCount_cons_untimed ht'] at h; exact h
      rw [ih a hpos, nonLastSum, if_neg (by simpa using ht : ¬has_letters t = true)]
      ring

/-- Filtering the token/duration pairs down to the timed tokens does not
change the total: untimed tokens are allocated 0. -/
lemma zip_filter_sum (ttc durcs : ℤ) : ∀ (toks : List String) (a r : ℤ),
    (((toks.zip (allocLoop ttc durcs a r toks)).filter
        (fun p => has_letters p.1)).map Prod.snd).sum =
      (allocLoop ttc durcs a r toks).sum := by
  intro toks
  induction toks with
  | nil => intro a r; rfl
  | cons t rest ih =>
    intro a r
    by_cases ht : has_letters t
    · simp only [allocLoop, if_pos ht, List.zip_cons_cons, List.filter_cons, ht,
        if_true, List.map_cons, List.sum_cons]
      rw [ih]
    · have ht' : has_letters t = false := by simpa using ht
      simp only [allocLoop, if_neg (by simpa using ht : ¬has_letters t = true),
        List.zip_cons_cons, List.filter_cons, ht', Bool.false_eq_true, if_false]
      rw [ih, List.sum_cons]
      ring

/-- C1 counterexample: the word `{"text": "aba", "start_ms": 0,
"end_ms": 10}` has `dur_cs = 1 > 0`, two timed syllable tokens
(`["a", "ba"]`), and the allocator writes 1 cs to each, summing to
2 ≠ 1: the floor of 1 cs per timed token breaks exact conservation. -/
theorem ass_line_alloc_counterexample :
    0 < dur_cs ⟨"aba", 0, 10⟩ ∧
    timed_durs_sum ⟨"aba", 0, 10⟩ ≠ dur_cs ⟨"aba", 0, 10⟩ := by decide

/-- C1 (amended): for a word with `dur_cs > 0` and at least one timed
token, the allocator's fill-tag centiseconds for the timed tokens sum to
`max (N + 1) dur_cs`, where `N` is the proportional total handed to the
non-last timed tokens.  The sum is therefore always ≥ `dur_cs`, and equals
`dur_cs` exactly when `N + 1 ≤ dur_cs`; it can exceed `dur_cs` because
the last timed token's residual is floored at 1. -/
theorem ass_line_word_alloc_sum (w : Word) (hd : 0 < dur_cs w)
    (ht : 0 < timedCount (word_tokens w)) :
    timed_durs_sum w =
      max (nonLastSum (timed_total_chars (word_tokens w)) (dur_cs w)
        (word_tokens w) + 1) (dur_cs w) ∧
    dur_cs w ≤ timed_durs_sum w ∧
    (nonLastSum (timed_total_chars (word_tokens w)) (dur_cs w)
        (word_tokens w) + 1 ≤ dur_cs w →
      timed_durs_sum w = dur_cs w) := by
  have httc : ¬timed_total_chars (word_tokens w) = 0 :=
    Nat.pos_iff_ne_zero.mp (timedCount_pos_ttc_pos ht)
  have hmain : timed_durs_sum w =
      max (0 + nonLastSum (timed_total_chars (word_tokens w)) (dur_cs w)
        (word_tokens w) + 1) (dur_cs w) - 0 := by
    rw [timed_durs_sum, word_token_durs, if_neg httc, zip_filter_sum,
      allocLoop_sum _ _ hd _ 0 ht]
  rw [hmain]
  omega

/-- C1 witness: the amended sum law at the concrete word
`{"text": "hola", "start_ms": 0, "end_ms": 300}` (`dur_cs = 30`, timed
tokens `["ho", "la"]`, allocations `[15, 15]`). -/
theorem ass_line_word_alloc_sum_witness :
    timed_durs_sum ⟨"hola", 0, 300⟩ =
      max (nonLastSum (timed_total_chars (word_tokens ⟨"hola", 0, 300⟩))
        (dur_cs ⟨"hola", 0, 300⟩) (word_tokens ⟨"hola", 0, 300⟩) + 1)
        (dur_cs ⟨"hola", 0, 300⟩) ∧
    dur_cs ⟨"hola", 0, 300⟩ ≤ timed_durs_sum ⟨"hola", 0, 300⟩ ∧
    (nonLastSum (timed_total_chars (word_tokens ⟨"hola", 0, 300⟩))
        (dur_cs ⟨"hola", 0, 300⟩) (word_tokens ⟨"hola", 0, 300⟩) + 1 ≤
        dur_cs ⟨"hola", 0, 300⟩ →
      timed_durs_sum ⟨"hola", 0, 300⟩ = dur_cs ⟨"hola", 0, 300⟩) :=
  ass_line_word_alloc_sum ⟨"hola", 0, 300⟩ (by decide) (by decide)

/-! ### The phrase grouper (`group_words`) -/

/-- The `cfg_video` configuration.  Pixel quantities are modelled as
rationals: the source mixes Python ints and floats, and `0.6` is modelled
as the exact rational `6/10`. -/
structure VideoCfg where
  width : ℚ
  height : ℚ
  font_size : ℚ
  margin_left : ℚ
  margin_right : ℚ
  margin_vertical : ℚ
deriving DecidableEq, Repr

/-- The `cfg_group` configuration. -/
structure GroupCfg where
  pause_threshold_ms : ℤ
deriving DecidableEq, Repr

/-- `estimate_char_width(font_size) = font_size * 0.6`. -/
def estimate_char_width (font_size : ℚ) : ℚ := font_size * (6 / 10)

/-- `available_width(cfg) = width - margin_left - margin_right`. -/
def available_width (cfg : VideoCfg) : ℚ :=
  cfg.width - cfg.margin_left - cfg.margin_right

/-- `" ".join(w["text"] for w in ws)`. -/
def joinSpace : List Word → String
  | [] => ""
  | [w] => w.text
  | w :: rest => w.text ++ " " ++ joinSpace rest

/-- Python whitespace (`str.rstrip` default set, ASCII range). -/
def pyIsSpace (c : Char) : Bool :=
  c = ' ' || c = '\t' || c = '\n' || c = '\r' || c.toNat = 11 || c.toNat = 12

/-- Python `str.rstrip()`. -/
def pyRstrip (s : String) : String := ⟨(s.data.reverse.dropWhile pyIsSpace).reverse⟩

/-- Python `s.endswith((s₁, …, sₙ))`: some listed suffix ends `s`. -/
def pyEndsWithAny (s : String) (suffixes : List String) : Bool :=
  suffixes.any (fun suf => suf.data.isSuffixOf s.data)

/-- `should_wrap_line(current_words, next_word, cfg_video)` from the
source: an empty current phrase never wraps; otherwise the candidate is
the space-joined current text, a space, and the next word. -/
def should_wrap_line (current : List Word) (next : Word) (cfg : VideoCfg) : Bool :=
  if current.isEmpty then false
  else
    decide (((joinSpace current ++ " " ++ next.text).length : ℚ) *
      estimate_char_width cfg.font_size > available_width cfg)

/-- The `should_split` disjunction of `group_words` (Python's `and` binds
tighter than `or`): pause above threshold, or sentence-ending punctuation
with pause above 500 ms, or line wrap. -/
def should_split (cfgg : GroupCfg) (cfgv : VideoCfg) (current : List Word)
    (prev w : Word) : Bool :=
  decide (w.start_ms - prev.end_ms > cfgg.pause_threshold_ms) ||
    (pyEndsWithAny (pyRstrip prev.text) [".", "!", "?"] &&
      decide (w.start_ms - prev.end_ms > 500)) ||
    should_wrap_line current w cfgv

/-- The main grouping loop of `group_words` (lines 188–207): `prev` is the
previous word of the word list, `current` the phrase being accumulated. -/
def groupLoop (cfgv : VideoCfg) (cfgg : GroupCfg) :
    Word → List Word → List Word → List (List Word)
  | _, current, [] => if current.isEmpty then [] else [current]
  | prev, current, w :: rest =>
    if should_split cfgg cfgv current prev w then
      if current.isEmpty then groupLoop cfgv cfgg w [w] rest
      else current :: groupLoop cfgv cfgg w [w] rest
    else groupLoop cfgv cfgg w (current ++ [w]) rest

/-- The first grouping pass of `group_words`, before merge optimization. -/
def group_first_pass (cfgv : VideoCfg) (cfgg : GroupCfg) : List Word → List (List Word)
  | [] => []
  | w :: rest => groupLoop cfgv cfgg w [w] rest

/-- The merged-phrase fit test of the optimization pass. -/
def fitsCombined (cfgv : VideoCfg) (comb : List Word) : Bool :=
  decide (((joinSpace comb).length : ℚ) * estimate_char_width cfgv.font_size ≤
    available_width cfgv)

/-- A dummy word: the source indexes `nxt[0]` / `cur[-1]`, which never hit
an empty phrase (phrases from the first pass are non-empty). -/
def dummyWord : Word := ⟨"", 0, 0⟩

/-- The merge-optimization pass of `group_words` (lines 209–227): a phrase
with fewer than 4 words merges with its successor when the pause between
them is under 600 ms and the combined text still fits; single pass. -/
def mergeLoop (cfgv : VideoCfg) : List (List Word) → List (List Word)
  | [] => []
  | [cur] => [cur]
  | cur :: nxt :: rest =>
    if cur.length < 4 ∧
        (nxt.headD dummyWord).start_ms - (cur.getLastD dummyWord).end_ms < 600 ∧
        fitsCombined cfgv (cur ++ nxt) = true then
      (cur ++ nxt) :: mergeLoop cfgv rest
    else
      cur :: mergeLoop cfgv (nxt :: rest)

/-- `group_words(words, cfg_video, cfg_group)`: first pass then merge
optimization (empty input gives an empty phrase list). -/
def group_words (words : List Word) (cfgv : VideoCfg) (cfgg : GroupCfg) :
    List (List Word) :=
  if words.isEmpty then []
  else mergeLoop cfgv (group_first_pass cfgv cfgg words)

/-! ### Claim C3: partition property of the grouper -/

lemma groupLoop_spec (cfgv : VideoCfg) (cfgg : GroupCfg) :
    ∀ (rest : List Word) (prev : Word) (current : List Word), current ≠ [] →
      (groupLoop cfgv cfgg prev current rest).flatten = current ++ rest ∧
      ∀ ph ∈ groupLoop cfgv cfgg prev current rest, ph ≠ [] := by
  intro rest
  induction rest with
  | nil =>
    intro prev current hcur
    rw [groupLoop, if_neg (by simpa using hcur)]
    exact ⟨by simp, by simpa using hcur⟩
  | cons w rest ih =>
    intro prev current hcur
    rw [groupLoop]
    by_cases hs : should_split cfgg cfgv current prev w
    · rw [if_pos hs, if_neg (by simpa using hcur)]
      obtain ⟨ih1, ih2⟩ := ih w [w] (by simp)
      refine ⟨?_, ?_⟩
      · simp only [List.flatten_cons, ih1]
        simp
      · intro ph hph
        rcases List.mem_cons.mp hph with h | h
        · subst h; exact hcur
        · exact ih2 ph h
    · rw [if_neg hs]
      obtain ⟨ih1, ih2⟩ := ih w (current ++ [w]) (by simp)
      exact ⟨by simp [ih1], ih2⟩

lemma mergeLoop_spec (cfgv : VideoCfg) : ∀ (n : ℕ) (ps : List (List Word)),
    ps.length ≤ n →
    (mergeLoop cfgv ps).flatten = ps.flatten ∧
    ((∀ ph ∈ ps, ph ≠ []) → ∀ ph ∈ mergeLoop cfgv ps, ph ≠ []) := by
  intro n
  induction n with
  | zero =>
    intro ps h
    obtain rfl : ps = [] := List.length_eq_zero.mp (Nat.le_zero.mp h)
    exact ⟨rfl, fun _ => by simp [mergeLoop]⟩
  | succ n ih =>
    intro ps h
    rcases ps with _ | ⟨cur, _ | ⟨nxt, rest⟩⟩
    · exact ⟨rfl, fun _ => by simp [mergeLoop]⟩
    · exact ⟨rfl, fun hne => by simpa [mergeLoop] using hne⟩
    · rw [mergeLoop]
      split
      · obtain ⟨ih1, ih2⟩ := ih rest (by simp at h ⊢; omega)
        refine ⟨by simp [ih1], ?_⟩
        intro hne ph hph
        rcases List.mem_cons.mp hph with hh | hh
        · subst hh
          have : cur ≠ [] := hne cur (by simp)
          intro hc
          exact this (List.append_eq_nil.mp hc).1
        · exact ih2 (fun q hq => hne q (List.mem_cons_of_mem _ (List.mem_cons_of_mem _ hq)))
            ph hh
      · obtain ⟨ih1, ih2⟩ := ih (nxt :: rest) (by simp at h ⊢; omega)
        refine ⟨by simp [ih1], ?_⟩
        intro hne ph hph
        rcases List.mem_cons.mp hph with hh | hh
        · subst hh; exact hne ph (by simp)
        · exact ih2 (fun q hq => hne q (List.mem_cons_of_mem _ hq)) ph hh

/-- C3: for every word list and configuration, the phrases produced by
`group_words` concatenate, in order, to exactly the input word list, every
phrase is non-empty, and the same holds already after the first grouping
pass (before merge optimization). -/
theorem group_words_partition (words : List Word) (cfgv : VideoCfg)
    (cfgg : GroupCfg) :
    (group_words words cfgv cfgg).flatten = words ∧
    (∀ ph ∈ group_words words cfgv cfgg, ph ≠ []) ∧
    (group_first_pass cfgv cfgg words).flatten = words ∧
    (∀ ph ∈ group_first_pass cfgv cfgg words, ph ≠ []) := by
  rcases words with _ | ⟨w, rest⟩
  · exact ⟨rfl, by simp [group_words], rfl, by simp [group_first_pass]⟩
  · obtain ⟨h1, h2⟩ := groupLoop_spec cfgv cfgg rest w [w] (by simp)
    have hfp1 : (group_first_pass cfgv cfgg (w :: rest)).flatten = w :: rest := by
      rw [group_first_pass, h1]; rfl
    have hgw : group_words (w :: rest) cfgv cfgg =
        mergeLoop cfgv (group_first_pass cfgv cfgg (w :: rest)) := by
      rw [group_words, if_neg (by simp)]
    obtain ⟨hm1, hm2⟩ := mergeLoop_spec cfgv
      (group_first_pass cfgv cfgg (w :: rest)).length _ le_rfl
    refine ⟨?_, ?_, hfp1, h2⟩
    · rw [hgw, hm1, hfp1]
    · rw [hgw]
      exact hm2 h2

/-! ### Claim C7: the split condition, refined against the spec's words -/

/-- The phrase-split condition as worded by the spec (§4.4): the pause
exceeds the threshold; or the previous word's right-trimmed text ends in
`.`, `!` or `?` and the pause exceeds 500 ms; or appending `w` to the
current phrase's space-joined text makes
`character_count × (font_size × 0.6)` exceed
`width − margin_left − margin_right`. -/
def specShouldSplit (cfgg : GroupCfg) (cfgv : VideoCfg) (current : List Word)
    (p w : Word) : Prop :=
  w.start_ms - p.end_ms > cfgg.pause_threshold_ms ∨
  (((pyRstrip p.text).data.getLast? = some '.' ∨
    (pyRstrip p.text).data.getLast? = some '!' ∨
    (pyRstrip p.text).data.getLast? = some '?') ∧ w.start_ms - p.end_ms > 500) ∨
  ((joinSpace (current ++ [w])).length : ℚ) * (cfgv.font_size * (6 / 10)) >
    cfgv.width - cfgv.margin_left - cfgv.margin_right

instance (cfgg : GroupCfg) (cfgv : VideoCfg) (current : List Word) (p w : Word) :
    Decidable (specShouldSplit cfgg cfgv current p w) := by
  unfold specShouldSplit
  infer_instance

/-- Grouping loop driven by the spec-worded split condition. -/
def specChunkLoop (cfgg : GroupCfg) (cfgv : VideoCfg) :
    Word → List Word → List Word → List (List Word)
  | _, current, [] => [current]
  | p, current, w :: rest =>
    if specShouldSplit cfgg cfgv current p w then
      current :: specChunkLoop cfgg cfgv w [w] rest
    else specChunkLoop cfgg cfgv w (current ++ [w]) rest

/-- First grouping pass as worded by the spec. -/
def spec_group_first_pass (cfgg : GroupCfg) (cfgv : VideoCfg) :
    List Word → List (List Word)
  | [] => []
  | w :: rest => specChunkLoop cfgg cfgv w [w] rest

lemma singleton_isSuffixOf_iff {c : Char} {l : List Char} :
    [c].isSuffixOf l = true ↔ l.getLast? = some c := by
  rw [List.isSuffixOf, List.reverse_singleton, ← List.head?_reverse]
  cases l.reverse with
  | nil => simp [List.isPrefixOf]
  | cons b t =>
    simp [List.isPrefixOf]
    exact eq_comm

lemma pyEndsWithAny_sentence_iff (s : String) :
    pyEndsWithAny s [".", "!", "?"] = true ↔
      (s.data.getLast? = some '.' ∨ s.data.getLast? = some '!' ∨
        s.data.getLast? = some '?') := by
  rw [pyEndsWithAny]
  simp only [List.any_cons, List.any_nil, Bool.or_false, Bool.or_eq_true]
  rw [singleton_isSuffixOf_iff, singleton_isSuffixOf_iff, singleton_isSuffixOf_iff]

lemma joinSpace_append_singleton (w : Word) : ∀ (current : List Word),
    current ≠ [] → joinSpace (current ++ [w]) = joinSpace current ++ " " ++ w.text := by
  intro current
  induction current with
  | nil => intro h; exact absurd rfl h
  | cons x rest ih =>
    intro _
    rcases rest with _ | ⟨y, t⟩
    · rfl
    · calc joinSpace ((x :: y :: t) ++ [w])
          = x.text ++ " " ++ joinSpace ((y :: t) ++ [w]) := rfl
        _ = x.text ++ " " ++ (joinSpace (y :: t) ++ " " ++ w.text) := by
            rw [ih (by simp)]
        _ = (x.text ++ " " ++ joinSpace (y :: t)) ++ " " ++ w.text := by
            simp [String.append_assoc]
        _ = joinSpace (x :: y :: t) ++ " " ++ w.text := rfl

lemma should_wrap_line_iff (current : List Word) (next : Word) (cfg : VideoCfg)
    (h : current ≠ []) :
    should_wrap_line current next cfg = true ↔
      ((joinSpace (current ++ [next])).length : ℚ) * (cfg.font_size * (6 / 10)) >
        cfg.width - cfg.margin_left - cfg.margin_right := by
  rw [should_wrap_line, if_neg (by simpa using h), decide_eq_true_iff,
    joinSpace_append_singleton next current h, estimate_char_width, available_width]

lemma should_split_iff (cfgg : GroupCfg) (cfgv : VideoCfg) (current : List Word)
    (prev w : Word) (h : current ≠ []) :
    should_split cfgg cfgv current prev w = true ↔
      specShouldSplit cfgg cfgv current prev w := by
  rw [should_split, specShouldSplit]
  simp only [Bool.or_eq_true, Bool.and_eq_true, decide_eq_true_iff,
    pyEndsWithAny_sentence_iff, should_wrap_line_iff current w cfgv h]
  tauto

lemma groupLoop_eq_specChunkLoop (cfgv : VideoCfg) (cfgg : GroupCfg) :
    ∀ (rest : List Word) (prev : Word) (current : List Word), current ≠ [] →
      groupLoop cfgv cfgg prev current rest = specChunkLoop cfgg cfgv prev current rest := by
  intro rest
  induction rest with
  | nil =>
    intro prev current hcur
    rw [groupLoop, specChunkLoop, if_neg (by simpa using hcur)]
  | cons w rest ih =>
    intro prev current hcur
    rw [groupLoop, specChunkLoop]
    by_cases hs : specShouldSplit cfgg cfgv current prev w
    · rw [if_pos hs, if_pos ((should_split_iff cfgg cfgv current prev w hcur).mpr hs),
        if_neg (by simpa using hcur), ih w [w] (by simp)]
    · rw [if_neg hs,
        if_neg (fun hc => hs ((should_split_iff cfgg cfgv current prev w hcur).mp hc)),
        ih w (current ++ [w]) (by simp)]

/-- C7: the first grouping pass starts a new phrase at a word `w` with
predecessor `p` exactly under the spec's condition: the code's grouping
coincides with grouping by the spec-worded split predicate
`specShouldSplit`. -/
theorem group_first_pass_eq_spec (cfgv : VideoCfg) (cfgg : GroupCfg)
    (words : List Word) :
    group_first_pass cfgv cfgg words = spec_group_first_pass cfgg cfgv words := by
  rcases words with _ | ⟨w, rest⟩
  · rfl
  · exact groupLoop_eq_specChunkLoop cfgv cfgg rest w [w] (by simp)

/-! ### The time codec (`segundos_a_tiempo_srt`, `parse_time_to_ms`) -/

/-- Decimal digit character, for `d < 10`. -/
def digitChar (d : ℕ) : Char := Char.ofNat (48 + d)

/-- Decimal digits of `n`, most significant first, with structural fuel
(`n + 1` is always enough fuel). -/
def decDigitsAux : ℕ → ℕ → List ℕ
  | 0, _ => []
  | fuel + 1, n => if n < 10 then [n] else decDigitsAux fuel (n / 10) ++ [n % 10]

def decDigits (n : ℕ) : List ℕ := decDigitsAux (n + 1) n

/-- Banker's rounding (Python `round` / `%.0f` formatting) on an exact
rational: ties go to the even integer. -/
def pyRoundQ (v : ℚ) : ℤ :=
  if v - ⌊v⌋ < 1 / 2 then ⌊v⌋
  else if (1 : ℚ) / 2 < v - ⌊v⌋ then ⌊v⌋ + 1
  else if ⌊v⌋ % 2 = 0 then ⌊v⌋ else ⌊v⌋ + 1

/-- Python float formatting `f"{v:0w.0f}"` for a non-negative value:
round half to even, render in decimal, zero-pad on the left to `w`
characters (the compiler only formats non-negative times). -/
def fmtF0 (width : ℕ) (v : ℚ) : List Char :=
  if ((decDigits (pyRoundQ v).toNat).map digitChar).length < width then
    List.replicate (width - ((decDigits (pyRoundQ v).toNat).map digitChar).length) '0' ++
      (decDigits (pyRoundQ v).toNat).map digitChar
  else
    (decDigits (pyRoundQ v).toNat).map digitChar

/-- Python `divmod` on (exact models of) floats: floor quotient and
remainder. -/
def divmodQ (a b : ℚ) : ℚ × ℚ :=
  (((⌊a / b⌋ : ℤ) : ℚ), a - b * ((⌊a / b⌋ : ℤ) : ℚ))

/-- `segundos_a_tiempo_srt(segundos)` from the source: repeated `divmod`
by 3600, 60 and 1, then `f"{horas:02.0f}:{minutos:02.0f}:{segs:02.0f},{(frac * 1000):03.0f}"`.
Python's float arithmetic is modelled exactly over `ℚ`; for the inputs
`ms / 1000` with `ms < 360 000 000` treated below, the source's float
rounding error is far smaller than the distance to any rounding
boundary, so the exact model and the float computation format the same
digits. -/
def segundos_a_tiempo_srt (segundos : ℚ) : String :=
  ⟨fmtF0 2 (divmodQ segundos 3600).1 ++ ':' ::
    fmtF0 2 (divmodQ (divmodQ segundos 3600).2 60).1 ++ ':' ::
    fmtF0 2 (divmodQ (divmodQ (divmodQ segundos 3600).2 60).2 1).1 ++ ',' ::
    fmtF0 3 ((divmodQ (divmodQ (divmodQ segundos 3600).2 60).2 1).2 * 1000)⟩

/-- ASCII decimal digit test (Python's `\d`, restricted to ASCII). -/
def isDig (c : Char) : Bool := decide (48 ≤ c.toNat ∧ c.toNat ≤ 57)

/-- Numeric value of a digit character. -/
def digitVal (c : Char) : ℕ := c.toNat - 48

/-- `parse_time_to_ms(time_str)` from the source:
`re.match(r"(\d{2}):(\d{2}):(\d{2}),(\d{3})", time_str)` is a *prefix*
match (no anchor at the end), so the first 12 characters must be
`HH:MM:SS,mmm` and anything may follow; on failure the source raises
`ValueError`, modelled as `none`. -/
def parse_time_to_ms (time_str : String) : Option ℤ :=
  match time_str.data with
  | c1 :: c2 :: c3 :: c4 :: c5 :: c6 :: c7 :: c8 :: c9 :: c10 :: c11 :: c12 :: _ =>
    if isDig c1 ∧ isDig c2 ∧ c3 = ':' ∧ isDig c4 ∧ isDig c5 ∧ c6 = ':' ∧
        isDig c7 ∧ isDig c8 ∧ c9 = ',' ∧ isDig c10 ∧ isDig c11 ∧ isDig c12 then
      some (((10 * digitVal c1 + digitVal c2 : ℕ) : ℤ) * 3600000 +
        ((10 * digitVal c4 + digitVal c5 : ℕ) : ℤ) * 60000 +
        ((10 * digitVal c7 + digitVal c8 : ℕ) : ℤ) * 1000 +
        ((100 * digitVal c10 + 10 * digitVal c11 + digitVal c12 : ℕ) : ℤ))
    else none
  | _ => none

/-! ### Digit and floor lemmas for the time codec -/

lemma floor_div_const (a b : ℕ) (hb : 0 < b) :
    ⌊(a : ℚ) / (b : ℚ)⌋ = ((a / b : ℕ) : ℤ) := by
  have h1 : (a / b) * b ≤ a := Nat.div_mul_le_self a b
  have h2 : a < (a / b + 1) * b := by
    rw [Nat.succ_mul]
    have hmod : b * (a / b) + a % b = a := Nat.div_add_mod a b
    have := Nat.mod_lt a hb
    linarith [hmod]
  rw [Int.floor_eq_iff]
  constructor
  · rw [le_div_iff₀ (by exact_mod_cast hb)]
    exact_mod_cast h1
  · rw [div_lt_iff₀ (by exact_mod_cast hb)]
    exact_mod_cast h2

lemma decDigitsAux_small {fuel n : ℕ} (hf : 0 < fuel) (h : n < 10) :
    decDigitsAux fuel n = [n] := by
  cases fuel with
  | zero => omega
  | succ f => rw [decDigitsAux, if_pos h]

lemma decDigitsAux_two {fuel n : ℕ} (hf : 1 < fuel) (h1 : 10 ≤ n) (h2 : n < 100) :
    decDigitsAux fuel n = [n / 10, n % 10] := by
  cases fuel with
  | zero => omega
  | succ f =>
    rw [decDigitsAux, if_neg (by omega), decDigitsAux_small (by omega) (by omega)]
    rfl

lemma decDigitsAux_three {fuel n : ℕ} (hf : 2 < fuel) (h1 : 100 ≤ n) (h2 : n < 1000) :
    decDigitsAux fuel n = [n / 100, n / 10 % 10, n % 10] := by
  cases fuel with
  | zero => omega
  | succ f =>
    rw [decDigitsAux, if_neg (by omega),
      decDigitsAux_two (by omega) (by omega) (by omega)]
    have : n / 10 / 10 = n / 100 := by
      rw [Nat.div_div_eq_div_mul]
    rw [this]
    rfl

lemma pyRoundQ_natCast (k : ℕ) : pyRoundQ ((k : ℕ) : ℚ) = (k : ℤ) := by
  rw [pyRoundQ, Int.floor_natCast, if_pos (by push_cast; norm_num)]

lemma fmtF0_two {k : ℕ} (hk : k < 100) :
    fmtF0 2 ((k : ℕ) : ℚ) = [digitChar (k / 10), digitChar (k % 10)] := by
  rw [fmtF0, pyRoundQ_natCast, Int.toNat_natCast]
  by_cases h : k < 10
  · rw [decDigits, decDigitsAux_small (by omega) h, if_pos (by simp)]
    have h10 : k / 10 = 0 := by omega
    have hmod : k % 10 = k := by omega
    rw [h10, hmod, show digitChar 0 = '0' from by decide]
    rfl
  · rw [decDigits, decDigitsAux_two (by omega) (by omega) hk, if_neg (by simp)]
    rfl

lemma fmtF0_three {k : ℕ} (hk : k < 1000) :
    fmtF0 3 ((k : ℕ) : ℚ) =
      [digitChar (k / 100), digitChar (k / 10 % 10), digitChar (k % 10)] := by
  rw [fmtF0, pyRoundQ_natCast, Int.toNat_natCast]
  by_cases h : k < 10
  · rw [decDigits, decDigitsAux_small (by omega) h, if_pos (by simp)]
    have e1 : k / 100 = 0 := by omega
    have e2 : k / 10 % 10 = 0 := by omega
    have e3 : k % 10 = k := by omega
    rw [e1, e2, e3, show digitChar 0 = '0' from by decide]
    rfl
  · by_cases h2 : k < 100
    · rw [decDigits, decDigitsAux_two (by omega) (by omega) h2, if_pos (by simp)]
      have e1 : k / 100 = 0 := by omega
      have e2 : k / 10 % 10 = k / 10 := by omega
      rw [e1, e2, show digitChar 0 = '0' from by decide]
      rfl
    · rw [decDigits, decDigitsAux_three (by omega) (by omega) hk, if_neg (by simp)]
      rfl

lemma isDig_digitChar {d : ℕ} (h : d < 10) : isDig (digitChar d) = true := by
  interval_cases d <;> decide

lemma digitVal_digitChar {d : ℕ} (h : d < 10) : digitVal (digitChar d) = d := by
  interval_cases d <;> decide

lemma divmodQ_div1000_fst (n c : ℕ) (hc : 0 < c) :
    (divmodQ ((n : ℚ) / 1000) c).1 = ((n / (1000 * c) : ℕ) : ℚ) := by
  show ((⌊(n : ℚ) / 1000 / (c : ℚ)⌋ : ℤ) : ℚ) = _
  rw [div_div, show (1000 : ℚ) * (c : ℚ) = ((1000 * c : ℕ) : ℚ) by push_cast; ring,
    floor_div_const n (1000 * c) (by positivity)]
  norm_cast

lemma divmodQ_div1000_snd (n c : ℕ) (hc : 0 < c) :
    (divmodQ ((n : ℚ) / 1000) c).2 = ((n % (1000 * c) : ℕ) : ℚ) / 1000 := by
  show (n : ℚ) / 1000 - (c : ℚ) * ((⌊(n : ℚ) / 1000 / (c : ℚ)⌋ : ℤ) : ℚ) = _
  rw [div_div, show (1000 : ℚ) * (c : ℚ) = ((1000 * c : ℕ) : ℚ) by push_cast; ring,
    floor_div_const n (1000 * c) (by positivity), Int.cast_natCast]
  have hmod : (1000 * c) * (n / (1000 * c)) + n % (1000 * c) = n :=
    Nat.div_add_mod n (1000 * c)
  have hq : ((1000 * c : ℕ) : ℚ) * ((n / (1000 * c) : ℕ) : ℚ) +
      ((n % (1000 * c) : ℕ) : ℚ) = (n : ℚ) := by
    exact_mod_cast hmod
  rw [show ((1000 * c : ℕ) : ℚ) = 1000 * (c : ℚ) by push_cast; ring] at hq
  field_simp
  linarith

/-- Closed form of the formatter on an exact millisecond input. -/
lemma segundos_closed (ms : ℕ) :
    segundos_a_tiempo_srt ((ms : ℚ) / 1000) =
      ⟨fmtF0 2 ((ms / 3600000 : ℕ) : ℚ) ++ ':' ::
        fmtF0 2 ((ms % 3600000 / 60000 : ℕ) : ℚ) ++ ':' ::
        fmtF0 2 ((ms % 3600000 % 60000 / 1000 : ℕ) : ℚ) ++ ',' ::
        fmtF0 3 ((ms % 3600000 % 60000 % 1000 : ℕ) : ℚ)⟩ := by
  rw [segundos_a_tiempo_srt]
  rw [show (3600 : ℚ) = ((3600 : ℕ) : ℚ) by norm_cast]
  rw [divmodQ_div1000_fst ms 3600 (by norm_num),
    divmodQ_div1000_snd ms 3600 (by norm_num)]
  rw [show (1000 * 3600 : ℕ) = 3600000 by norm_num]
  rw [show (60 : ℚ) = ((60 : ℕ) : ℚ) by norm_cast]
  rw [divmodQ_div1000_fst (ms % 3600000) 60 (by norm_num),
    divmodQ_div1000_snd (ms % 3600000) 60 (by norm_num)]
  rw [show (1000 * 60 : ℕ) = 60000 by norm_num]
  rw [show (1 : ℚ) = ((1 : ℕ) : ℚ) by norm_cast]
  rw [divmodQ_div1000_fst (ms % 3600000 % 60000) 1 (by norm_num),
    divmodQ_div1000_snd (ms % 3600000 % 60000) 1 (by norm_num)]
  rw [show (1000 * 1 : ℕ) = 1000 by norm_num]
  rw [div_mul_cancel₀ _ (by norm_num : (1000 : ℚ) ≠ 0)]

/-! ### Claim C6: timestamp round-trip -/

/-- C6 counterexample: at `ms = 360 000 000` (100 hours) the formatter
emits `"100:00:00,000"`, whose three-digit hour field the parser's
`HH:MM:SS,mmm` pattern rejects, so the round-trip fails. -/
theorem srt_roundtrip_counterexample :
    parse_time_to_ms (segundos_a_tiempo_srt (((360000000 : ℕ) : ℚ) / 1000)) ≠
      some ((360000000 : ℕ) : ℤ) := by
  have h100 : fmtF0 2 ((100 : ℕ) : ℚ) = ['1', '0', '0'] := by
    rw [fmtF0, pyRoundQ_natCast, Int.toNat_natCast, decDigits,
      decDigitsAux_three (by norm_num) (by norm_num) (by norm_num), if_neg (by simp)]
    decide
  rw [segundos_closed,
    show (360000000 / 3600000 : ℕ) = 100 from by norm_num,
    show (360000000 % 3600000 : ℕ) = 0 from by norm_num,
    h100, fmtF0_two (show (0 : ℕ) < 100 from by norm_num),
    fmtF0_three (show (0 : ℕ) < 1000 from by norm_num)]
  decide

/-- C6 (amended): for every `ms < 360 000 000` (i.e. below 100 hours,
where the hour field still has two digits), parsing the formatted
comma-clock string gives back exactly `ms`. -/
theorem parse_format_roundtrip (ms : ℕ) (h : ms < 360000000) :
    parse_time_to_ms (segundos_a_tiempo_srt ((ms : ℚ) / 1000)) =
      some ((ms : ℕ) : ℤ) := by
  rw [segundos_closed,
    fmtF0_two (show ms / 3600000 < 100 by omega),
    fmtF0_two (show ms % 3600000 / 60000 < 100 by omega),
    fmtF0_two (show ms % 3600000 % 60000 / 1000 < 100 by omega),
    fmtF0_three (show ms % 3600000 % 60000 % 1000 < 1000 by omega)]
  simp only [parse_time_to_ms, List.cons_append, List.nil_append]
  rw [if_pos ⟨isDig_digitChar (by omega), isDig_digitChar (by omega), trivial,
    isDig_digitChar (by omega), isDig_digitChar (by omega), trivial,
    isDig_digitChar (by omega), isDig_digitChar (by omega), trivial,
    isDig_digitChar (by omega), isDig_digitChar (by omega),
    isDig_digitChar (by omega)⟩]
  congr 1
  rw [digitVal_digitChar (by omega), digitVal_digitChar (by omega),
    digitVal_digitChar (by omega), digitVal_digitChar (by omega),
    digitVal_digitChar (by omega), digitVal_digitChar (by omega),
    digitVal_digitChar (by omega), digitVal_digitChar (by omega),
    digitVal_digitChar (by omega)]
  push_cast
  omega

/-- C6 witness: the round-trip at the concrete value `ms = 999`. -/
theorem parse_format_roundtrip_witness :
    parse_time_to_ms (segundos_a_tiempo_srt (((999 : ℕ) : ℚ) / 1000)) =
      some ((999 : ℕ) : ℤ) :=
  parse_format_roundtrip 999 (by norm_num)

/-! ### Claim C5: the parser of the comma-clock format -/

/-- The amended contract of `parse_time_to_ms`, worded positionally: the
parse succeeds iff the string is at least 12 characters long, characters
at positions 0–1, 3–4, 6–7 and 9–11 are decimal digits and the characters
at positions 2, 5 and 8 are `:`, `:` and `,`; any trailing characters are
ignored, and the value is assembled from those digit positions. -/
def clockPrefixSpec (s : String) : Option ℤ :=
  if h : 12 ≤ s.data.length ∧
      isDig (s.data.getD 0 ' ') ∧ isDig (s.data.getD 1 ' ') ∧
      s.data.getD 2 ' ' = ':' ∧ isDig (s.data.getD 3 ' ') ∧
      isDig (s.data.getD 4 ' ') ∧ s.data.getD 5 ' ' = ':' ∧
      isDig (s.data.getD 6 ' ') ∧ isDig (s.data.getD 7 ' ') ∧
      s.data.getD 8 ' ' = ',' ∧ isDig (s.data.getD 9 ' ') ∧
      isDig (s.data.getD 10 ' ') ∧ isDig (s.data.getD 11 ' ') then
    some (((10 * digitVal (s.data.getD 0 ' ') + digitVal (s.data.getD 1 ' ') : ℕ) : ℤ) *
        3600000 +
      ((10 * digitVal (s.data.getD 3 ' ') + digitVal (s.data.getD 4 ' ') : ℕ) : ℤ) * 60000 +
      ((10 * digitVal (s.data.getD 6 ' ') + digitVal (s.data.getD 7 ' ') : ℕ) : ℤ) * 1000 +
      ((100 * digitVal (s.data.getD 9 ' ') + 10 * digitVal (s.data.getD 10 ' ') +
          digitVal (s.data.getD 11 ' ') : ℕ) : ℤ))
  else none

/-- C5 counterexample: `parse_time_to_ms` succeeds on
`"00:00:01,0005"`, a text that does **not** match `HH:MM:SS,mmm`
exactly (it has a trailing extra digit), because `re.match` only anchors
at the start; the claim says every such text must fail. -/
theorem parse_time_trailing_counterexample :
    parse_time_to_ms "00:00:01,0005" = some 1000 := by decide

/-- C5 (amended): `parse_time_to_ms` implements exactly the positional
prefix contract `clockPrefixSpec`: it fails iff the first 12 characters
do not form `HH:MM:SS,mmm`, trailing characters are ignored, and on
success the value is `h·3600000 + m·60000 + s·1000 + ms` from the first
12 characters. -/
theorem parse_time_to_ms_eq_spec (s : String) :
    parse_time_to_ms s = clockPrefixSpec s := by
  obtain ⟨l⟩ := s
  rcases l with _ | ⟨c1, _ | ⟨c2, _ | ⟨c3, _ | ⟨c4, _ | ⟨c5, _ | ⟨c6, _ | ⟨c7,
    _ | ⟨c8, _ | ⟨c9, _ | ⟨c10, _ | ⟨c11, _ | ⟨c12, rest⟩⟩⟩⟩⟩⟩⟩⟩⟩⟩⟩⟩
  all_goals try rfl
  show (if isDig c1 ∧ isDig c2 ∧ c3 = ':' ∧ isDig c4 ∧ isDig c5 ∧ c6 = ':' ∧
      isDig c7 ∧ isDig c8 ∧ c9 = ',' ∧ isDig c10 ∧ isDig c11 ∧ isDig c12 then
    some (((10 * digitVal c1 + digitVal c2 : ℕ) : ℤ) * 3600000 +
      ((10 * digitVal c4 + digitVal c5 : ℕ) : ℤ) * 60000 +
      ((10 * digitVal c7 + digitVal c8 : ℕ) : ℤ) * 1000 +
      ((100 * digitVal c10 + 10 * digitVal c11 + digitVal c12 : ℕ) : ℤ))
    else none) = clockPrefixSpec _
  split
  · next hcond =>
    rw [clockPrefixSpec, dif_pos ⟨by simp, hcond⟩]
    rfl
  · next hcond =>
    rw [clockPrefixSpec, dif_neg (fun hc => hcond hc.2)]

/-! ### The transcript parser (`parse_srt_word_level`) -/

/-- Python `str.strip()` (both ends, default whitespace). -/
def pyStrip (s : String) : String :=
  ⟨((s.data.dropWhile pyIsSpace).reverse.dropWhile pyIsSpace).reverse⟩

/-- Python `str.split(sep)` for a one-character separator: split at every
occurrence, keeping empty pieces.  The result is always non-empty. -/
def splitOnCharL (sep : Char) : List Char → List (List Char)
  | [] => [[]]
  | c :: rest =>
    if c = sep then [] :: splitOnCharL sep rest
    else
      match splitOnCharL sep rest with
      | [] => [[c]]
      | g :: gs => (c :: g) :: gs

/-- `" ".join(...)` over character lists. -/
def joinSpaceL : List (List Char) → List Char
  | [] => []
  | [l] => l
  | l :: rest => l ++ ' ' :: joinSpaceL rest

/-- `"\n".join(...)` over character lists. -/
def joinNL : List (List Char) → List Char
  | [] => []
  | [l] => l
  | l :: rest => l ++ '\n' :: joinNL rest

/-- The two `raise ValueError` sites of the compiler. -/
inductive SrtError where
  | malformedTimestamp
  | emptyTranscript
deriving DecidableEq, Repr

/-- Characters of the loose time-range character class `[\d:,]`. -/
def isTimeChar (c : Char) : Bool := isDig c || c = ':' || c = ','

/-- `re.match(r"([\d:,]+)\s*-->\s*([\d:,]+)", tline)`: a greedy
non-empty run of time characters, optional whitespace, the literal
`-->`, optional whitespace, then a second greedy non-empty run.
Trailing characters are ignored (`re.match` anchors only at the start);
backtracking never helps because the character classes are disjoint from
`-` and whitespace. -/
def looseTimeRange (line : List Char) : Option (List Char × List Char) :=
  let g1 := line.takeWhile isTimeChar
  if g1.isEmpty then none
  else
    match (line.dropWhile isTimeChar).dropWhile pyIsSpace with
    | '-' :: '-' :: '>' :: rest2 =>
      let g2 := (rest2.dropWhile pyIsSpace).takeWhile isTimeChar
      if g2.isEmpty then none else some (g1, g2)
    | _ => none

/-- Processing of one block by `parse_srt_word_level` (lines 66–80):
`ok none` means the block is skipped, `ok (some w)` contributes a timed
word, and a timestamp captured by the loose pattern but rejected by
`parse_time_to_ms` raises (`error`). -/
def parseBlock (block : String) : Except SrtError (Option Word) :=
  if (splitOnCharL '\n' (pyStrip block).data).length < 3 then .ok none
  else
    match looseTimeRange ((splitOnCharL '\n' (pyStrip block).data).getD 1 []) with
    | none => .ok none
    | some (g1, g2) =>
      match parse_time_to_ms ⟨g1⟩, parse_time_to_ms ⟨g2⟩ with
      | some s, some e =>
        if pyStrip ⟨joinSpaceL ((splitOnCharL '\n' (pyStrip block).data).drop 2)⟩ = ""
        then .ok none
        else .ok (some ⟨pyStrip ⟨joinSpaceL ((splitOnCharL '\n' (pyStrip block).data).drop 2)⟩, s, e⟩)
      | _, _ => .error .malformedTimestamp

/-- The block loop of `parse_srt_word_level`: words accumulate in order;
the first raising block aborts the whole parse. -/
def parseBlocks : List String → Except SrtError (List Word)
  | [] => .ok []
  | b :: rest =>
    match parseBlock b with
    | .error e => .error e
    | .ok none => parseBlocks rest
    | .ok (some w) => (parseBlocks rest).map (fun ws => w :: ws)

/-- Group the lines of the stripped content into blocks: maximal runs of
lines that are not whitespace-only.  This models
`re.split(r"\n\s*\n", content)` on stripped content: every inner
whitespace-only line is flanked by newlines and acts as a separator, and
whitespace-only lines at a piece's edge are removed anyway by the
per-block `strip()`. -/
def groupBlocks : ℕ → List (List Char) → List (List (List Char))
  | 0, _ => []
  | _ + 1, [] => []
  | fuel + 1, ls =>
    match ls.dropWhile (fun l => l.all pyIsSpace) with
    | [] => []
    | ls' =>
      ls'.takeWhile (fun l => !l.all pyIsSpace) ::
        groupBlocks fuel (ls'.dropWhile (fun l => !l.all pyIsSpace))

/-- `re.split(r"\n\s*\n", content.strip())`, as block strings. -/
def splitBlocks (content : String) : List String :=
  (groupBlocks (splitOnCharL '\n' (pyStrip content).data).length
      (splitOnCharL '\n' (pyStrip content).data)).map (fun g => (⟨joinNL g⟩ : String))

/-- `parse_srt_word_level` on the file's contents. -/
def parse_srt_word_level (content : String) : Except SrtError (List Word) :=
  parseBlocks (splitBlocks content)

/-! ### Claim C4: recovery from unmatched time-range lines -/

lemma parseBlock_skip (b : String)
    (h : looseTimeRange ((splitOnCharL '\n' (pyStrip b).data).getD 1 []) = none) :
    parseBlock b = .ok none := by
  rw [parseBlock]
  split
  · rfl
  · rw [h]

/-- C4 (amended): a block whose second line the **loose** pattern
`[\d:,]+ --> [\d:,]+` does not match is skipped: the parse of the
surrounding block list is unchanged.  (When the loose pattern matches but
a captured timestamp is not valid `HH:MM:SS,mmm`, the whole parse fails
instead — see the counterexample.) -/
theorem parser_skips_unmatched_blocks (bs1 bs2 : List String) (b : String)
    (h : looseTimeRange ((splitOnCharL '\n' (pyStrip b).data).getD 1 []) = none) :
    parseBlocks (bs1 ++ b :: bs2) = parseBlocks (bs1 ++ bs2) := by
  induction bs1 with
  | nil =>
    simp only [List.nil_append, parseBlocks, parseBlock_skip b h]
  | cons x xs ih =>
    simp only [List.cons_append, parseBlocks]
    simp only [List.append_eq] at ih ⊢
    rw [ih]

/-- C4 witness: a block whose second line holds no time range is skipped
next to a valid block. -/
theorem parser_skips_unmatched_blocks_witness :
    parseBlocks ["1\n00:00:00,000 --> 00:00:01,000\nhola",
        "garbage\nno time range here\nx"] =
      parseBlocks ["1\n00:00:00,000 --> 00:00:01,000\nhola"] :=
  parser_skips_unmatched_blocks ["1\n00:00:00,000 --> 00:00:01,000\nhola"] []
    "garbage\nno time range here\nx" (by decide)

/-- C4 counterexample: the claim says a block whose second line does not
match the comma-clock time-range pattern is skipped and never fatal while
usable words remain.  But on the block `"2\n0:0 --> 0:0\nmal"` — whose
second line matches no comma-clock range — the parse of the whole
transcript fails with `MalformedTimestamp` even though the first block
yields a usable word: the loose pattern accepts `0:0`, and the strict
parse then raises. -/
theorem parser_fatal_block_counterexample :
    parse_time_to_ms "0:0 --> 0:0" = none ∧
    parse_srt_word_level
        "1\n00:00:00,000 --> 00:00:01,000\nhola\n\n2\n0:0 --> 0:0\nmal" =
      .error .malformedTimestamp :=
  ⟨by decide, by rfl⟩

/-! ### The document builder (`ass_header`, `ass_line`, `write_ass`) -/

/-- The `style` configuration dictionary (`DEFAULT_STYLE` fields). -/
structure StyleCfg where
  name : String
  font : String
  primary : String
  secondary : String
  outline : String
  back : String
  outline_width : ℤ
  shadow : ℤ
  alignment : ℤ
deriving DecidableEq, Repr

/-- Decimal rendering of an integer (Python `str`/f-string of an `int`). -/
def intDec (z : ℤ) : List Char :=
  if z < 0 then '-' :: (decDigits z.natAbs).map digitChar
  else (decDigits z.toNat).map digitChar

/-- Rendering of a numeric config field in an f-string.  The source's
config values are Python ints (the defaults all are); a non-integral
rational is rendered with its numerator and denominator, standing in for
Python float `repr`, which no theorem below depends on. -/
def renderNum (q : ℚ) : List Char :=
  if q.den = 1 then intDec q.num
  else intDec q.num ++ '/' :: intDec q.den

/-- Zero-pad to two characters (`f"{v:02d}"`). -/
def pad2Int (z : ℤ) : List Char :=
  if (intDec z).length < 2 then '0' :: intDec z else intDec z

/-- `ms_to_ass_time(ms)` from the source: `H:MM:SS.cc` with truncating
integer division (Python `//` and `%` are floor operations). -/
def ms_to_ass_time (ms : ℤ) : String :=
  ⟨intDec (Int.fdiv ms 3600000) ++ ':' ::
    pad2Int (Int.fdiv (Int.emod ms 3600000) 60000) ++ ':' ::
    pad2Int (Int.fdiv (Int.emod ms 60000) 1000) ++ '.' ::
    pad2Int (Int.fdiv (Int.emod ms 1000) 10)⟩

/-- `ass_header(cfg_video, style)` from the source, field for field. -/
def ass_header (cfgv : VideoCfg) (style : StyleCfg) : String :=
  "[Script Info]\n" ++
  "Title: Karaoke\n" ++
  "ScriptType: v4.00+\n" ++
  "Collisions: Normal\n" ++
  "PlayDepth: 0\n" ++
  "Timer: 100.0000\n" ++
  "Video Aspect Ratio: " ++ (⟨renderNum cfgv.width⟩ : String) ++ ":" ++
    (⟨renderNum cfgv.height⟩ : String) ++ "\n" ++
  "WrapStyle: 0\n\n" ++
  "[V4+ Styles]\n" ++
  "Format: Name, Fontname, Fontsize, PrimaryColour, SecondaryColour, " ++
  "OutlineColour, BackColour, " ++
  "Bold, Italic, Underline, StrikeOut, ScaleX, ScaleY, Spacing, Angle, " ++
  "BorderStyle, Outline, Shadow, " ++
  "Alignment, MarginL, MarginR, MarginV, Encoding\n" ++
  "Style: " ++ style.name ++ "," ++ style.font ++ "," ++
    (⟨renderNum cfgv.font_size⟩ : String) ++ "," ++
    style.primary ++ "," ++ style.secondary ++ "," ++
    style.outline ++ "," ++ style.back ++ ",1,0,0,0,100,100,0,0,1," ++
    (⟨intDec style.outline_width⟩ : String) ++ "," ++
    (⟨intDec style.shadow⟩ : String) ++ "," ++
    (⟨intDec style.alignment⟩ : String) ++ "," ++
    (⟨renderNum cfgv.margin_left⟩ : String) ++ "," ++
    (⟨renderNum cfgv.margin_right⟩ : String) ++ "," ++
    (⟨renderNum cfgv.margin_vertical⟩ : String) ++ ",1\n\n" ++
  "[Events]\n" ++
  "Format: Layer, Start, End, Style, Name, MarginL, " ++
  "MarginR, MarginV, Effect, Text\n"

/-- One `{\kfN}` karaoke fill tag. -/
def kfTag (cs : ℤ) : String := "\x7b\\kf" ++ (⟨intDec cs⟩ : String) ++ "\x7d"

/-- The tagged text of one word: each token prefixed by its fill tag
(the durations come from the allocation loop of `ass_line`). -/
def wordKaraoke (w : Word) : String :=
  String.join (((word_tokens w).zip (word_token_durs w)).map
    (fun p => kfTag p.2 ++ p.1))

/-- The karaoke text of a phrase: each non-last word is followed by a
pause tag (`max(0, round(max(0, gap) / 10))` centiseconds) carrying a
space. -/
def karaokeText : List Word → String
  | [] => ""
  | [w] => wordKaraoke w
  | w :: nxt :: rest =>
    wordKaraoke w ++
      kfTag (max 0 (pyRoundDiv (max 0 (nxt.start_ms - w.end_ms)) 10)) ++ " " ++
      karaokeText (nxt :: rest)

/-- `ass_line(phrase_words, _cfg_video)` from the source.  The style
field is the hardcoded literal `Karaoke`, not the configured style name.
The `cfg_video` parameter is unused, as in the source. -/
def ass_line (phrase : List Word) (_cfgv : VideoCfg) : String :=
  "Dialogue: 0," ++ ms_to_ass_time (phrase.headD dummyWord).start_ms ++ "," ++
    ms_to_ass_time (phrase.getLastD dummyWord).end_ms ++ ",Karaoke,,0,0,0,," ++
    karaokeText phrase

/-- `"\n".join(lines)`. -/
def joinLinesNL : List String → String
  | [] => ""
  | [s] => s
  | s :: rest => s ++ "\n" ++ joinLinesNL rest

/-- The full document text written by `write_ass`: header followed by the
dialogue lines joined with single newlines, one complete payload. -/
def write_ass_text (phrases : List (List Word)) (cfgv : VideoCfg)
    (style : StyleCfg) : String :=
  ass_header cfgv style ++ joinLinesNL (phrases.map (fun p => ass_line p cfgv))

/-- `convertir_srt_a_ass`: parse, fail on an empty word list, otherwise
group and emit the complete document.  The `Except` result carries either
the whole document or an error — never a partial document, matching the
source, which builds the full text before its single write. -/
def convertir_srt_a_ass (content : String) (cfgv : VideoCfg) (cfgg : GroupCfg)
    (style : StyleCfg) : Except SrtError String :=
  match parse_srt_word_level content with
  | .error e => .error e
  | .ok words =>
    if words.isEmpty then .error .emptyTranscript
    else .ok (write_ass_text (group_words words cfgv cfgg) cfgv style)

/-! ### Claim C9: empty transcript is fatal with no output -/

/-- C9: whenever parsing yields zero timed words, the compile call fails
with `EmptyTranscript` and produces no document at all — the result is
the bare error, with no (partial) document on that path. -/
theorem convertir_empty_transcript (content : String) (cfgv : VideoCfg)
    (cfgg : GroupCfg) (style : StyleCfg)
    (h : parse_srt_word_level content = .ok []) :
    convertir_srt_a_ass content cfgv cfgg style = .error .emptyTranscript := by
  rw [convertir_srt_a_ass, h]
  rfl

/-- C9 witness: the empty transcript text parses to zero words and the
compile call fails with `EmptyTranscript`. -/
theorem convertir_empty_transcript_witness :
    convertir_srt_a_ass "" ⟨1920, 1080, 50, 30, 30, 45⟩ ⟨800⟩
        ⟨"Karaoke", "Arial Black", "&H00FFFF00", "&H00FF00FF", "&H00000000",
          "&H80000000", 3, 2, 2⟩ =
      .error .emptyTranscript :=
  convertir_empty_transcript "" _ _ _ (by rfl)

/-! ### Claim C8: the style name carried by dialogue lines -/

lemma splitOnCharL_sep_cons (sep : Char) (a b : List Char)
    (h : ∀ x ∈ a, x ≠ sep) :
    splitOnCharL sep (a ++ sep :: b) = a :: splitOnCharL sep b := by
  induction a with
  | nil => simp [splitOnCharL]
  | cons x xs ih =>
    rw [List.cons_append, splitOnCharL, if_neg (h x (by simp)),
      ih (fun y hy => h y (by simp [hy]))]

lemma mem_decDigitsAux_lt : ∀ {fuel n d : ℕ}, d ∈ decDigitsAux fuel n → d < 10 := by
  intro fuel
  induction fuel with
  | zero => intro n d hd; simp [decDigitsAux] at hd
  | succ f ih =>
    intro n d hd
    rw [decDigitsAux] at hd
    by_cases h : n < 10
    · rw [if_pos h] at hd
      rw [List.mem_singleton] at hd
      omega
    · rw [if_neg h] at hd
      rcases List.mem_append.mp hd with hm | hm
      · exact ih hm
      · rw [List.mem_singleton] at hm
        omega

lemma digitChar_ne_comma {d : ℕ} (h : d < 10) : digitChar d ≠ ',' := by
  interval_cases d <;> decide

lemma intDec_ne_comma (z : ℤ) : ∀ c ∈ intDec z, c ≠ ',' := by
  intro c hc
  rw [intDec] at hc
  split at hc
  · rcases List.mem_cons.mp hc with h | h
    · subst h; decide
    · rcases List.mem_map.mp h with ⟨d, hd, rfl⟩
      exact digitChar_ne_comma (mem_decDigitsAux_lt hd)
  · rcases List.mem_map.mp hc with ⟨d, hd, rfl⟩
    exact digitChar_ne_comma (mem_decDigitsAux_lt hd)

lemma pad2Int_ne_comma (z : ℤ) : ∀ c ∈ pad2Int z, c ≠ ',' := by
  intro c hc
  rw [pad2Int] at hc
  by_cases h : (intDec z).length < 2
  · rw [if_pos h] at hc
    rcases List.mem_cons.mp hc with h' | h'
    · subst h'; decide
    · exact intDec_ne_comma z c h'
  · rw [if_neg h] at hc
    exact intDec_ne_comma z c hc

lemma ms_to_ass_time_ne_comma (ms : ℤ) :
    ∀ c ∈ (ms_to_ass_time ms).data, c ≠ ',' := by
  show ∀ c ∈ intDec (Int.fdiv ms 3600000) ++ ':' ::
    pad2Int (Int.fdiv (Int.emod ms 3600000) 60000) ++ ':' ::
    pad2Int (Int.fdiv (Int.emod ms 60000) 1000) ++ '.' ::
    pad2Int (Int.fdiv (Int.emod ms 1000) 10), c ≠ ','
  refine List.forall_mem_append.mpr
    ⟨?_, List.forall_mem_cons.mpr ⟨by decide, pad2Int_ne_comma _⟩⟩
  refine List.forall_mem_append.mpr
    ⟨?_, List.forall_mem_cons.mpr ⟨by decide, pad2Int_ne_comma _⟩⟩
  exact List.forall_mem_append.mpr
    ⟨intDec_ne_comma _, List.forall_mem_cons.mpr ⟨by decide, pad2Int_ne_comma _⟩⟩

lemma splitOnCharL_getD3 (a b c d rest : List Char)
    (ha : ∀ x ∈ a, x ≠ ',') (hb : ∀ x ∈ b, x ≠ ',') (hc : ∀ x ∈ c, x ≠ ',')
    (hd : ∀ x ∈ d, x ≠ ',') :
    (splitOnCharL ',' (a ++ ',' :: (b ++ ',' :: (c ++ ',' :: (d ++ ',' :: rest))))).getD
      3 [] = d := by
  rw [splitOnCharL_sep_cons _ _ _ ha, splitOnCharL_sep_cons _ _ _ hb,
    splitOnCharL_sep_cons _ _ _ hc, splitOnCharL_sep_cons _ _ _ hd]
  rfl

/-- C8 (amended): the style-name field (the fourth comma-separated field)
of every dialogue line emitted by `ass_line` is the hardcoded literal
`Karaoke`, for every phrase, layout and configured style; it equals the
configured style's name — the name the header's style block declares —
exactly when that name is `"Karaoke"` (as in the default style). -/
theorem ass_line_style_field (phrase : List Word) (cfgv : VideoCfg)
    (style : StyleCfg) :
    (splitOnCharL ',' (ass_line phrase cfgv).data).getD 3 [] = "Karaoke".data ∧
    ((splitOnCharL ',' (ass_line phrase cfgv).data).getD 3 [] = style.name.data ↔
      style.name = "Karaoke") := by
  have hdata : (ass_line phrase cfgv).data =
      "Dialogue: 0".data ++ ',' ::
        ((ms_to_ass_time (phrase.headD dummyWord).start_ms).data ++ ',' ::
          ((ms_to_ass_time (phrase.getLastD dummyWord).end_ms).data ++ ',' ::
            ("Karaoke".data ++ ',' ::
              (',' :: '0' :: ',' :: '0' :: ',' :: '0' :: ',' :: ',' ::
                (karaokeText phrase).data)))) := by
    rw [ass_line]
    simp only [String.data_append]
    simp only [List.cons_append, List.nil_append, List.append_assoc]
  have hfield : (splitOnCharL ',' (ass_line phrase cfgv).data).getD 3 [] =
      "Karaoke".data := by
    rw [hdata]
    exact splitOnCharL_getD3 _ _ _ _ _ (by decide)
      (ms_to_ass_time_ne_comma _) (ms_to_ass_time_ne_comma _) (by decide)
  refine ⟨hfield, ?_⟩
  rw [hfield]
  constructor
  · intro h
    exact (congrArg String.mk h).symm
  · intro h
    rw [h]

/-- C8 counterexample: with a configured style named `MyStyle`, the
header's style block declares `MyStyle` but the dialogue line's style
field is the literal `Karaoke` ≠ `MyStyle`: dialogue lines do not carry
the configured style's name. -/
theorem ass_line_style_name_counterexample :
    (splitOnCharL ','
        (ass_line [⟨"hola", 0, 500⟩] ⟨1920, 1080, 50, 30, 30, 45⟩).data).getD 3 [] =
      "Karaoke".data ∧
    "Style: MyStyle,".data <:+:
      (ass_header ⟨1920, 1080, 50, 30, 30, 45⟩
        ⟨"MyStyle", "Arial Black", "&H00FFFF00", "&H00FF00FF", "&H00000000",
          "&H80000000", 3, 2, 2⟩).data ∧
    ("Karaoke" : String) ≠ "MyStyle" := by
  refine ⟨by decide, ?_, by decide⟩
  set_option maxRecDepth 8000 in decide


end Subtitles
